import Mathlib

/-!
Shallow embedding of the index construction and valuation engine of the
gnucash-stock-quotes repository.

Prices are modelled as rationals (`ℚ`); a missing observation (pandas `NaN`)
is `Option.none`.  Dates are natural numbers (ISO date strings are totally
ordered; only their order is used by the code).  A wide-format dataframe
(`date × symbol → close`) is a shared date index together with one value list
per symbol column, as produced by `TickerQuotes.make_wide_dataframe`.

Sources embedded here:
 - src/market_indexes/asset_index.py  (class AssetIndex)
 - src/alphavantage/quotes.py         (make_wide_dataframe)
 - src/alphavantage/db_utils.py       (QuoteDatabase.save_quotes)
-/

namespace MarketIndexes

abbrev Sym := String

/-- A wide-format price table: a date index plus one column of optional
(close) values per symbol, each column aligned with the date index.
Models the pandas DataFrame `self.dfs` of `AssetIndex`. -/
structure WideDF where
  dates : List Nat
  cols : List (Sym × List (Option ℚ))
deriving Repr, DecidableEq

/-- Well-formedness: every column has one (possibly missing) value per date,
as pandas guarantees for a DataFrame. -/
def TableWF (df : WideDF) : Prop := ∀ c ∈ df.cols, c.2.length = df.dates.length

instance : DecidablePred TableWF := fun df =>
  inferInstanceAs (Decidable (∀ c ∈ df.cols, c.2.length = df.dates.length))

/-- Errors raised by pandas lookups (`KeyError` on a missing date row or a
missing symbol column) and config lookups. -/
inductive KeyErr where
  | dateKey (d : Nat)
  | colKey (s : Sym)
deriving Repr, DecidableEq

instance {ε α : Type} [DecidableEq ε] [DecidableEq α] : DecidableEq (Except ε α) := fun x y =>
  match x, y with
  | .ok a, .ok b =>
    if h : a = b then .isTrue (by rw [h])
    else .isFalse (fun hc => h (by injection hc))
  | .ok _, .error _ => .isFalse (fun hc => Except.noConfusion hc)
  | .error _, .ok _ => .isFalse (fun hc => Except.noConfusion hc)
  | .error e, .error f =>
    if h : e = f then .isTrue (by rw [h])
    else .isFalse (fun hc => h (by injection hc))

/-- Column access `df[symbol]`: look the symbol up among the columns. -/
def getCol (df : WideDF) (s : Sym) : Option (List (Option ℚ)) :=
  df.cols.lookup s

/-- The list of column names (`df.columns`). -/
def colNames (df : WideDF) : List Sym := df.cols.map Prod.fst

/-- Position of a date in the date index (`none` when the row is absent). -/
def dateIndex : List Nat → Nat → Option Nat
  | [], _ => none
  | a :: t, d => if a = d then some 0 else (dateIndex t d).map (· + 1)

/-- Value of column `s` at row position `i`. -/
def colAt (df : WideDF) (s : Sym) (i : Nat) : Option ℚ :=
  ((getCol df s).getD []).getD i none

/-- The cell `df.loc[d, s]` as an optional value (missing cell = `none`);
does not model the `KeyError` cases (see `scalarLoc`). -/
def cellAt (df : WideDF) (d : Nat) (s : Sym) : Option ℚ :=
  match getCol df s, dateIndex df.dates d with
  | some col, some i => col.getD i none
  | _, _ => none

/-- `df.loc[d, s]` with pandas `KeyError` semantics: an error when the date
row or the symbol column is absent; the cell itself may still be `NaN`. -/
def scalarLoc (df : WideDF) (d : Nat) (s : Sym) : Except KeyErr (Option ℚ) :=
  match dateIndex df.dates d with
  | none => .error (.dateKey d)
  | some i =>
    match getCol df s with
    | none => .error (.colKey s)
    | some col => .ok (col.getD i none)

/-- The member part of `self.dfs.loc[start_date, members]` once the date row
is at position `i`: each member's cell, or `KeyError` on a missing column. -/
def locRowAux (df : WideDF) (i : Nat) : List Sym → Except KeyErr (List (Sym × Option ℚ))
  | [] => .ok []
  | s :: rest =>
    match getCol df s with
    | none => .error (.colKey s)
    | some col =>
      match locRowAux df i rest with
      | .error e => .error e
      | .ok tail => .ok ((s, col.getD i none) :: tail)

/-- `self.dfs.loc[start_date, members]`: the row of (optional) start prices
for the given member list, raising `KeyError` when the date row or any
member column is absent. -/
def locRow (df : WideDF) (d : Nat) (members : List Sym) :
    Except KeyErr (List (Sym × Option ℚ)) :=
  match dateIndex df.dates d with
  | none => .error (.dateKey d)
  | some i => locRowAux df i members

/-! ## Portfolio calculators (src/market_indexes/asset_index.py) -/

/-- `_calculate_equal_weight_portfolio`: given the start-price row, each
member gets `portfolio_value / (len(members) * price)`; a `NaN` start price
propagates into a `NaN` holding. -/
def equalWeightHoldings (V : ℚ) (row : List (Sym × Option ℚ)) :
    List (Sym × Option ℚ) :=
  row.map fun e => (e.1, e.2.map fun p => V / (row.length * p))

/-- pandas `Series.sum()` (skipna=True): missing entries contribute 0. -/
def optSum (l : List (Option ℚ)) : ℚ :=
  (l.map fun v => v.getD 0).sum

/-- `_calculate_constant_weight_portfolio`: every member gets
`portfolio_value / start_prices.sum()`. -/
def constantHoldings (V : ℚ) (row : List (Sym × Option ℚ)) :
    List (Sym × Option ℚ) :=
  row.map fun e => (e.1, some (V / optSum (row.map Prod.snd)))

/-- `_calculate_market_cap_portfolio`: member `s` gets
`portfolio_value * market_caps[s] / (price * total_mcap)` where
`market_caps = dict(zip(members, MARKET_CAP))` and
`total_mcap = sum(MARKET_CAP)`. -/
def marketCapHoldings (V : ℚ) (row : List (Sym × Option ℚ))
    (mcaps : List (Sym × ℚ)) (totalM : ℚ) : List (Sym × Option ℚ) :=
  row.map fun e =>
    (e.1, e.2.bind fun p => (mcaps.lookup e.1).map fun m => V * m / (p * totalM))

/-- One entry of the `asset_indexes` configuration list. -/
structure IndexDef where
  name : Sym
  type : String
  members : List Sym
  marketCap : List ℚ
  createdDate : Option Nat
deriving Repr, DecidableEq

/-- The three recognised weighting schemes. -/
inductive CalcKind where
  | eqW | constW | mcapW
deriving Repr, DecidableEq

/-- `portfolio_calculators.get(index_type)`: dispatch on the `TYPE` string,
`none` for an unrecognised scheme. -/
def calcFor (t : String) : Option CalcKind :=
  if t = "EQUAL_WEIGHT" then some .eqW
  else if t = "CONSTANT" then some .constW
  else if t = "MARKET_CAP" then some .mcapW
  else none

/-- `idx.get("CREATED_DATE", self.dfs.index.min())`: the configured creation
date, defaulting to the earliest date of the table (an empty table gives a
`NaN` start date, which the subsequent `.loc` rejects). -/
def resolveStart (df : WideDF) (idx : IndexDef) : Except KeyErr Nat :=
  match idx.createdDate with
  | some d => .ok d
  | none =>
    match df.dates.min? with
    | some d => .ok d
    | none => .error (.dateKey 0)

/-- Run the calculator selected for an index on its resolved start row. -/
def runCalc (k : CalcKind) (df : WideDF) (V : ℚ) (idx : IndexDef) (d : Nat) :
    Except KeyErr (List (Sym × Option ℚ)) :=
  match locRow df d idx.members with
  | .error e => .error e
  | .ok row =>
    match k with
    | .eqW => .ok (equalWeightHoldings V row)
    | .constW => .ok (constantHoldings V row)
    | .mcapW =>
      .ok (marketCapHoldings V row (idx.members.zip idx.marketCap) idx.marketCap.sum)

/-- `_initialize_portfolios`: walk the index definitions in order; an index
whose `TYPE` has no calculator is skipped silently, otherwise its portfolio
is computed and recorded under its name. -/
def initializePortfolios (df : WideDF) (V : ℚ) :
    List IndexDef → Except KeyErr (List (Sym × List (Sym × Option ℚ)))
  | [] => .ok []
  | idx :: rest =>
    match calcFor idx.type with
    | none => initializePortfolios df V rest
    | some k =>
      match resolveStart df idx with
      | .error e => .error e
      | .ok d =>
        match runCalc k df V idx d with
        | .error e => .error e
        | .ok p =>
          match initializePortfolios df V rest with
          | .error e => .error e
          | .ok tail => .ok ((idx.name, p) :: tail)

/-! ## Series arithmetic (pandas semantics: NaN propagates) -/

/-- Addition on optional values: `NaN` propagates. -/
def optAdd (a b : Option ℚ) : Option ℚ := do
  let x ← a
  let y ← b
  pure (x + y)

/-- Multiplication on optional values: `NaN` propagates. -/
def optMul (a b : Option ℚ) : Option ℚ := do
  let x ← a
  let y ← b
  pure (x * y)

/-- `self.dfs[symbol] * shares` (a `NaN` shares value poisons the column). -/
def seriesMulShares (col : List (Option ℚ)) (shares : Option ℚ) :
    List (Option ℚ) :=
  col.map fun v => optMul v shares

/-- Aligned addition of two series. -/
def seriesAdd (a b : List (Option ℚ)) : List (Option ℚ) :=
  List.zipWith optAdd a b

/-- The scalar `0` broadcast over the date index (the start value of Python's
builtin `sum`; `0 + NaN = NaN`). -/
def zeroSeries (n : Nat) : List (Option ℚ) :=
  List.replicate n (some 0)

/-- The list of per-member series `self.dfs[symbol] * shares`, raising
`KeyError` when a portfolio symbol has no column. -/
def memberSeries (df : WideDF) :
    List (Sym × Option ℚ) → Except KeyErr (List (List (Option ℚ)))
  | [] => .ok []
  | e :: rest =>
    match getCol df e.1 with
    | none => .error (.colKey e.1)
    | some col =>
      match memberSeries df rest with
      | .error err => .error err
      | .ok tail => .ok (seriesMulShares col e.2 :: tail)

/-- `sum(self.dfs[symbol] * shares for symbol, shares in portfolio.items())`:
the per-member series summed with Python's builtin `sum` starting from the
scalar `0`. -/
def portfolioSeries (df : WideDF) (p : List (Sym × Option ℚ)) :
    Except KeyErr (List (Option ℚ)) :=
  match memberSeries df p with
  | .error e => .error e
  | .ok series => .ok (series.foldl seriesAdd (zeroSeries df.dates.length))

/-- `df[name] = vals`: overwrite the column when it exists, else append it. -/
def setCol (df : WideDF) (name : Sym) (vals : List (Option ℚ)) : WideDF :=
  if (getCol df name).isSome then
    { df with cols := df.cols.map fun c => if c.1 = name then (name, vals) else c }
  else
    { df with cols := df.cols ++ [(name, vals)] }

/-- `_calculate_indexes`: for each portfolio in order, write its value series
into the shared table under the index name. -/
def calcIndexes (df : WideDF) :
    List (Sym × List (Sym × Option ℚ)) → Except KeyErr WideDF
  | [] => .ok df
  | e :: rest =>
    match portfolioSeries df e.2 with
    | .error err => .error err
    | .ok s => calcIndexes (setCol df e.1 s) rest

/-! ## Comparison report (get_comparison_dataframe, market_indexes version) -/

/-- Order on output rows by date, for `sort_index()`. -/
def rowLE (a b : Nat × ℚ × ℚ) : Prop := a.1 ≤ b.1

instance : DecidableRel rowLE := fun a b => Nat.decLe a.1 b.1

instance : IsTotal (Nat × ℚ × ℚ) rowLE := ⟨fun a b => Nat.le_total a.1 b.1⟩

instance : IsTrans (Nat × ℚ × ℚ) rowLE := ⟨fun _ _ _ h1 h2 => Nat.le_trans h1 h2⟩

/-- `dropna()` over the two selected columns: keep exactly the dates where
both values are present. -/
def bothPresentRows (dates : List Nat) (a b : List (Option ℚ)) :
    List (Nat × ℚ × ℚ) :=
  (dates.zip (a.zip b)).filterMap fun e =>
    match e.2.1, e.2.2 with
    | some x, some y => some (e.1, x, y)
    | _, _ => none

/-- `sort_index()`: sort the rows ascending by date. -/
def sortRows (rows : List (Nat × ℚ × ℚ)) : List (Nat × ℚ × ℚ) :=
  rows.insertionSort rowLE

/-- `self.dfs[[index_name, comparison_name]].dropna().sort_index()`. -/
def comparisonRows (df : WideDF) (indexName compName : Sym) :
    Except KeyErr (List (Nat × ℚ × ℚ)) :=
  match getCol df indexName with
  | none => .error (.colKey indexName)
  | some idxCol =>
    match getCol df compName with
    | none => .error (.colKey compName)
    | some compCol => .ok (sortRows (bothPresentRows df.dates idxCol compCol))

/-- The `shares == 0` sentinel of `get_comparison_dataframe`: auto-size the
benchmark to `portfolio_value / dfs.loc[created_date, symbol]` (looking the
index's `CREATED_DATE` up in the configuration), else keep the given shares.
A missing cell gives `NaN` shares. -/
def resolveShares (df : WideDF) (defs : List IndexDef) (V : ℚ)
    (indexName compSym : Sym) (compShares : ℚ) : Except KeyErr (Option ℚ) :=
  if compShares = 0 then
    match defs.find? (fun i => i.name == indexName) with
    | none => .error (.colKey indexName)
    | some idx =>
      match idx.createdDate with
      | none => .error (.colKey "CREATED_DATE")
      | some d =>
        match scalarLoc df d compSym with
        | .error e => .error e
        | .ok p => .ok (p.map fun q => V / q)
  else .ok (some compShares)

/-- `get_comparison_dataframe` (src/market_indexes/asset_index.py): resolve
the comparison shares, write the scaled comparison column into the shared
table, then select the two columns, drop incomplete rows and sort.  Returns
the mutated table together with the report rows. -/
def getComparisonDataframe (df : WideDF) (defs : List IndexDef) (V : ℚ)
    (indexName compSym : Sym) (compShares : ℚ) :
    Except KeyErr (WideDF × List (Nat × ℚ × ℚ)) :=
  match resolveShares df defs V indexName compSym compShares with
  | .error e => .error e
  | .ok shares =>
    match getCol df compSym with
    | none => .error (.colKey compSym)
    | some col =>
      let df2 := setCol df (compSym ++ "_comparison") (seriesMulShares col shares)
      match comparisonRows df2 indexName (compSym ++ "_comparison") with
      | .error e => .error e
      | .ok rows => .ok (df2, rows)

/-! ## PriceTable preparation (_prepare_dataframe, _verify_data_completeness) -/

/-- Drop columns without a single observation
(`df.dropna(axis=1, how="all")`). -/
def dropAllNoneCols (df : WideDF) : WideDF :=
  { df with cols := df.cols.filter fun c => c.2.any Option.isSome }

/-- `dfs[self.symbols_list]`: select the configured symbol columns, raising
`KeyError` listing the symbols that are not columns at all. -/
def selectCols (df : WideDF) (syms : List Sym) : Except (List Sym) WideDF :=
  if (syms.filter fun s => (getCol df s).isNone).isEmpty then
    .ok { dates := df.dates, cols := syms.map fun s => (s, (getCol df s).getD []) }
  else .error (syms.filter fun s => (getCol df s).isNone)

/-- `_prepare_dataframe`: select the configured columns, then drop the
entirely empty ones. -/
def prepareDataframe (df : WideDF) (syms : List Sym) : Except (List Sym) WideDF :=
  (selectCols df syms).map dropAllNoneCols

/-- `_verify_data_completeness`: the warning list of configured symbols that
are not columns of the prepared table. -/
def verifyDataCompleteness (syms : List Sym) (df : WideDF) : List Sym :=
  syms.filter fun s => (getCol df s).isNone

/-! ## Quote ingestion (make_wide_dataframe) and DB upsert (save_quotes) -/

/-- One long-format quote observation (`date`, `symbol`, `close`). -/
structure QuoteRow where
  date : Nat
  symbol : Sym
  close : ℚ
deriving Repr, DecidableEq

/-- One cell of the pivot table: pandas' default `aggfunc` aggregates the
observations sharing a (date, symbol) key by their arithmetic mean; a key
with no observation is missing. -/
def pivotCell (rows : List QuoteRow) (d : Nat) (s : Sym) : Option ℚ :=
  let xs := (rows.filter fun r => r.date == d && r.symbol == s).map (·.close)
  if xs.isEmpty then none else some (xs.sum / (xs.length : ℚ))

/-- `make_wide_dataframe`: `pivot_table("close", index="date",
columns="symbol")` with pandas' default mean aggregation, followed by
`dropna(axis=1, how="all")`.  The pivot sorts the date index and the symbol
columns ascending. -/
def makeWideDataframe (rows : List QuoteRow) : WideDF :=
  let dates := ((rows.map (·.date)).dedup).insertionSort (· ≤ ·)
  let syms := ((rows.map (·.symbol)).dedup).insertionSort (· ≤ ·)
  dropAllNoneCols
    { dates := dates,
      cols := syms.map fun s => (s, dates.map fun d => pivotCell rows d s) }

/-- Primary key of the `quotes` table: (date, symbol, namespace). -/
abbrev QuoteKey := Nat × Sym × Sym

/-- One record inserted by `save_quotes`. -/
structure DBQuote where
  date : Nat
  symbol : Sym
  ns : Sym
  close : ℚ
deriving Repr, DecidableEq

/-- The primary key of a record. -/
def dbKey (q : DBQuote) : QuoteKey := (q.date, q.symbol, q.ns)

/-- One `INSERT ... ON DUPLICATE KEY UPDATE close = VALUES(close)`: a new key
is appended, an existing key has its close overwritten. -/
def upsertQuote (db : List (QuoteKey × ℚ)) (q : DBQuote) : List (QuoteKey × ℚ) :=
  if (db.lookup (dbKey q)).isSome then
    db.map fun e => if e.1 = dbKey q then (dbKey q, q.close) else e
  else db ++ [(dbKey q, q.close)]

/-- `save_quotes`: upsert the records in iteration order. -/
def saveQuotes (db : List (QuoteKey × ℚ)) (rows : List DBQuote) :
    List (QuoteKey × ℚ) :=
  rows.foldl upsertQuote db

/-! ## Measuring function used by the spec-side statements -/

/-- The spec's start-date portfolio value: `Σ holding(s) × P(s, start_date)`
over the members, a missing factor contributing 0. -/
def startValue (port row : List (Sym × Option ℚ)) : ℚ :=
  (((port.map Prod.snd).zip (row.map Prod.snd)).map
    fun e => e.1.getD 0 * e.2.getD 0).sum

/-! ## Concrete inputs used by counterexamples and witnesses -/

/-- Scenario A/B start-price row: AAA at 10, BBB at 20. -/
def exRow : List (Sym × Option ℚ) := [("AAA", some 10), ("BBB", some 20)]

/-- Scenario C market caps for AAA and BBB. -/
def exMcaps : List ℚ := [100, 300]

/-- A table where member BBB has a column but no price at the first date. -/
def dfMissB : WideDF :=
  ⟨[0, 1], [("AAA", [some 10, some 11]), ("BBB", [none, some 20])]⟩

/-- An EQUAL_WEIGHT index over AAA and BBB starting at date 0. -/
def idxMissB : IndexDef := ⟨"idx", "EQUAL_WEIGHT", ["AAA", "BBB"], [], some 0⟩

/-- A table where member B has a price at date 0 but not at date 1. -/
def dfSer : WideDF := ⟨[0, 1], [("A", [some 1, some 2]), ("B", [some 3, none])]⟩

/-- A two-member portfolio over dfSer. -/
def pSer : List (Sym × Option ℚ) := [("A", some 2), ("B", some 1)]

/-- Scenario F shaped table: the index column covers dates 2..5, the
benchmark column only 3..5. -/
def dfCmp : WideDF :=
  ⟨[2, 3, 4, 5],
   [("IDX", [some 1, some 2, some 3, some 4]),
    ("SPY", [none, some 5, some 6, some 7])]⟩

/-- dfCmp after get_comparison_dataframe added the scaled comparison column. -/
def dfCmp2 : WideDF :=
  ⟨[2, 3, 4, 5],
   [("IDX", [some 1, some 2, some 3, some 4]),
    ("SPY", [none, some 5, some 6, some 7]),
    ("SPY_comparison", [none, some 5, some 6, some 7])]⟩

/-- A table with only an A column; symbol B is wholly absent. -/
def dfAbsent : WideDF := ⟨[0], [("A", [some 1])]⟩

/-- A table where B has a column but no observation at all. -/
def dfSparse : WideDF := ⟨[0, 1], [("A", [some 1, some 2]), ("B", [none, none])]⟩

/-- A one-column table used to exhibit table mutation. -/
def dfMut : WideDF := ⟨[0], [("A", [some 2])]⟩

/-- One portfolio holding 3 shares of A, to be valued over dfMut. -/
def portsMut : List (Sym × List (Sym × Option ℚ)) := [("I", [("A", some 3)])]

/-- dfMut after _calculate_indexes wrote the index column I. -/
def dfMut2 : WideDF := ⟨[0], [("A", [some 2]), ("I", [some 6])]⟩

/-- Two quotes for the same (date, symbol) pair with different closes. -/
def dupQuotes : List QuoteRow := [⟨1, "A", 10⟩, ⟨1, "A", 20⟩]

/-- The same duplicate pair as database records. -/
def dupDBQuotes : List DBQuote := [⟨1, "A", "N", 10⟩, ⟨1, "A", "N", 20⟩]

/-- A small table for the unknown-scheme witness. -/
def dfTen : WideDF := ⟨[0], [("A", [some 10])]⟩

/-- A recognised EQUAL_WEIGHT definition. -/
def idxKnown : IndexDef := ⟨"iA", "EQUAL_WEIGHT", ["A"], [], some 0⟩

/-- A second recognised definition (CONSTANT). -/
def idxKnown2 : IndexDef := ⟨"iB", "CONSTANT", ["A"], [], some 0⟩

/-- A definition whose TYPE is none of the three schemes. -/
def idxUnknown : IndexDef := ⟨"iF", "FOO", ["A"], [], some 0⟩

/-! # Helper lemmas -/

lemma lookup_eq_of_mem_of_nodup {α β : Type} [BEq α] [LawfulBEq α]
    {l : List (α × β)} {s : α} {v : β}
    (hnd : (l.map Prod.fst).Nodup) (hmem : (s, v) ∈ l) : l.lookup s = some v := by
  induction l with
  | nil => simp at hmem
  | cons a t ih =>
    simp only [List.map_cons, List.nodup_cons] at hnd
    rcases List.mem_cons.mp hmem with h | h
    · rw [← h]
      simp [List.lookup]
    · have hne : (s == a.1) = false := by
        refine beq_eq_false_iff_ne.mpr fun he => hnd.1 ?_
        rw [← he]
        exact List.mem_map_of_mem Prod.fst h
      obtain ⟨k, b⟩ := a
      simpa [List.lookup, hne] using ih hnd.2 h

lemma lookup_eq_none_of_not_mem_keys {α β : Type} [BEq α] [LawfulBEq α]
    {l : List (α × β)} {s : α}
    (h : s ∉ l.map Prod.fst) : l.lookup s = none := by
  induction l with
  | nil => rfl
  | cons a t ih =>
    simp only [List.map_cons, List.mem_cons, not_or] at h
    have hne : (s == a.1) = false := beq_eq_false_iff_ne.mpr h.1
    obtain ⟨k, b⟩ := a
    simpa [List.lookup, hne] using ih h.2

lemma map_fst_mapVals {α β γ : Type} (g : α × β → γ) (l : List (α × β)) :
    (l.map fun e => (e.1, g e)).map Prod.fst = l.map Prod.fst := by
  induction l with
  | nil => rfl
  | cons a t ih => simp [ih]

lemma lookup_mapVals_eq_of_mem {α β γ : Type} [BEq α] [LawfulBEq α]
    (g : α × β → γ) {l : List (α × β)} {s : α} {v : β}
    (hnd : (l.map Prod.fst).Nodup) (hmem : (s, v) ∈ l) :
    (l.map fun e => (e.1, g e)).lookup s = some (g (s, v)) := by
  refine lookup_eq_of_mem_of_nodup ?_ (List.mem_map_of_mem _ hmem)
  rw [map_fst_mapVals]
  exact hnd

lemma sum_map_eq_of_const {α : Type} (l : List α) (f : α → ℚ) (c : ℚ)
    (h : ∀ a ∈ l, f a = c) : (l.map f).sum = l.length * c := by
  induction l with
  | nil => simp
  | cons a t ih =>
    simp only [List.map_cons, List.sum_cons, h a (List.mem_cons_self a t),
      ih fun x hx => h x (List.mem_cons_of_mem a hx), List.length_cons]
    push_cast
    ring

lemma startValue_map (g : Sym × Option ℚ → Option ℚ) (row : List (Sym × Option ℚ)) :
    startValue (row.map fun e => (e.1, g e)) row =
      (row.map fun e => (g e).getD 0 * e.2.getD 0).sum := by
  unfold startValue
  rw [List.map_map, List.zip_map', List.map_map]
  rfl

/-! # Claim theorems -/

/-- C1: for an EQUAL_WEIGHT index over a duplicate-free member list with a
positive start price for every member, `_calculate_equal_weight_portfolio`
assigns each member the holding `V / (N * P(s))`, so each member's dollar
allocation is `V / N` and the start-date portfolio value is exactly `V`. -/
theorem equal_weight_portfolio_spec (V : ℚ) (row : List (Sym × Option ℚ))
    (hne : row ≠ []) (hnd : (row.map Prod.fst).Nodup)
    (hp : ∀ e ∈ row, 0 < e.2.getD 0) :
    (∀ s p, (s, some p) ∈ row →
      (equalWeightHoldings V row).lookup s = some (some (V / (row.length * p))) ∧
      V / (row.length * p) * p = V / row.length) ∧
    startValue (equalWeightHoldings V row) row = V := by
  have hN : (row.length : ℚ) ≠ 0 := by
    exact_mod_cast Nat.pos_iff_ne_zero.mp (List.length_pos.mpr hne)
  constructor
  · intro s p hmem
    have hp0 : 0 < p := by simpa using hp _ hmem
    constructor
    · have h := lookup_mapVals_eq_of_mem
        (fun e => e.2.map fun q => V / (row.length * q)) hnd hmem
      simpa [equalWeightHoldings] using h
    · field_simp
      ring
  · have h := startValue_map (fun e => e.2.map fun q => V / (row.length * q)) row
    rw [equalWeightHoldings, h]
    rw [sum_map_eq_of_const _ _ (V / row.length)]
    · field_simp
    · intro e he
      have hp0 := hp e he
      rcases he2 : e.2 with _ | p
      · rw [he2] at hp0; norm_num at hp0
      · rw [he2] at hp0
        simp only [Option.getD_some] at hp0
        simp only [he2, Option.map_some, Option.getD_some]
        field_simp
        ring

/-- Witness for C1: Scenario A (AAA at 10, BBB at 20, V = 1000) satisfies the
hypotheses; holdings are 50 and 25 and the start value is 1000. -/
theorem equal_weight_portfolio_spec_witness :
    (∀ s p, (s, some p) ∈ exRow →
      (equalWeightHoldings 1000 exRow).lookup s = some (some (1000 / (exRow.length * p))) ∧
      1000 / (exRow.length * p) * p = 1000 / exRow.length) ∧
    startValue (equalWeightHoldings 1000 exRow) exRow = 1000 :=
  equal_weight_portfolio_spec 1000 exRow (by decide) (by decide)
    (by norm_num [exRow])

/-- C2: for a CONSTANT index over a duplicate-free member list with a
positive start price for every member, `_calculate_constant_weight_portfolio`
gives every member the identical holding quantity `V / Σ_m P(m)` (exact
equality across members), and the start-date portfolio value is exactly `V`. -/
theorem constant_portfolio_spec (V : ℚ) (row : List (Sym × Option ℚ))
    (hne : row ≠ []) (hnd : (row.map Prod.fst).Nodup)
    (hp : ∀ e ∈ row, 0 < e.2.getD 0) :
    (∀ e ∈ constantHoldings V row, e.2 = some (V / optSum (row.map Prod.snd))) ∧
    (∀ s v, (s, v) ∈ row →
      (constantHoldings V row).lookup s = some (some (V / optSum (row.map Prod.snd)))) ∧
    startValue (constantHoldings V row) row = V := by
  have hT : 0 < optSum (row.map Prod.snd) := by
    unfold optSum
    rw [List.map_map]
    refine List.sum_pos _ (fun x hx => ?_) (by simp [hne])
    rcases List.mem_map.mp hx with ⟨e, he, rfl⟩
    exact hp e he
  refine ⟨?_, ?_, ?_⟩
  · intro e he
    rcases List.mem_map.mp he with ⟨a, _, rfl⟩
    rfl
  · intro s v hmem
    exact lookup_mapVals_eq_of_mem
      (fun _ => some (V / optSum (row.map Prod.snd))) hnd hmem
  · have e1 : constantHoldings V row = row.map fun e =>
        (e.1, (fun _ : Sym × Option ℚ => some (V / optSum (row.map Prod.snd))) e) := rfl
    rw [e1, startValue_map]
    simp only [Option.getD_some]
    rw [List.sum_map_mul_left]
    have e2 : (row.map fun e => e.2.getD 0).sum = optSum (row.map Prod.snd) := by
      unfold optSum
      rw [List.map_map]
      rfl
    rw [e2]
    exact div_mul_cancel₀ V (ne_of_gt hT)

/-- Witness for C2: Scenario B (AAA at 10, BBB at 20, V = 1000) satisfies the
hypotheses; both members hold 1000/30 and the start value is 1000. -/
theorem constant_portfolio_spec_witness :
    (∀ e ∈ constantHoldings 1000 exRow, e.2 = some (1000 / optSum (exRow.map Prod.snd))) ∧
    (∀ s v, (s, v) ∈ exRow →
      (constantHoldings 1000 exRow).lookup s = some (some (1000 / optSum (exRow.map Prod.snd)))) ∧
    startValue (constantHoldings 1000 exRow) exRow = 1000 :=
  constant_portfolio_spec 1000 exRow (by decide) (by decide) (by norm_num [exRow])

/-- C3: for a MARKET_CAP index over a duplicate-free member list with
matching market-cap list, positive prices, positive V and positive total
market cap, `_calculate_market_cap_portfolio` gives member `s` the holding
`V * marketCap(s) / (P(s) * Σ marketCap)`, and its start-date dollar
allocation divided by `V` is its market-cap share. -/
theorem market_cap_portfolio_spec (V : ℚ) (row : List (Sym × Option ℚ)) (mcaps : List ℚ)
    (hlen : mcaps.length = row.length)
    (hnd : (row.map Prod.fst).Nodup)
    (hp : ∀ e ∈ row, 0 < e.2.getD 0)
    (hV : 0 < V) (hT : 0 < mcaps.sum) :
    ∀ s p m, ((s, some p), m) ∈ row.zip mcaps →
      (marketCapHoldings V row ((row.map Prod.fst).zip mcaps) mcaps.sum).lookup s =
        some (some (V * m / (p * mcaps.sum))) ∧
      V * m / (p * mcaps.sum) * p / V = m / mcaps.sum := by
  intro s p m hmem
  have h1 : (s, some p) ∈ row := (List.of_mem_zip hmem).1
  have hp0 : 0 < p := by simpa using hp _ h1
  have hdict : ((row.map Prod.fst).zip mcaps).lookup s = some m := by
    refine lookup_eq_of_mem_of_nodup ?_ ?_
    · rw [List.map_fst_zip]
      · exact hnd
      · simp [hlen]
    · rw [List.zip_map_left]
      exact List.mem_map_of_mem (Prod.map Prod.fst id) hmem
  constructor
  · have h := lookup_mapVals_eq_of_mem
      (fun e => e.2.bind fun q => (((row.map Prod.fst).zip mcaps).lookup e.1).map
        fun mm => V * mm / (q * mcaps.sum)) hnd h1
    simpa [marketCapHoldings, hdict] using h
  · field_simp
    ring

unseal Rat.mul Rat.add Rat.inv Rat.sub in
/-- Witness for C3: Scenario C (prices 10 and 20, market caps 100 and 300,
V = 1000) satisfies the hypotheses; AAA holds 1000·100/(10·400) = 25 and
its dollar share is 100/400. -/
theorem market_cap_portfolio_spec_witness :
    (marketCapHoldings 1000 exRow ((exRow.map Prod.fst).zip exMcaps) exMcaps.sum).lookup "AAA" =
      some (some (1000 * 100 / (10 * exMcaps.sum))) ∧
    1000 * 100 / (10 * exMcaps.sum) * 10 / 1000 = 100 / exMcaps.sum :=
  market_cap_portfolio_spec 1000 exRow exMcaps (by decide) (by decide)
    (by norm_num [exRow]) (by norm_num) (by norm_num [exMcaps]) "AAA" 10 100 (by decide)

/-- C10: an index definition whose TYPE is none of EQUAL_WEIGHT, CONSTANT,
MARKET_CAP is silently skipped by `_initialize_portfolios`: the run behaves
exactly as if the definition were absent (no entry, no error, all other
definitions still processed), and a run containing only that definition
yields an empty portfolio map. -/
theorem unknown_scheme_skipped (df : WideDF) (V : ℚ) (pre post : List IndexDef)
    (idx : IndexDef)
    (h1 : idx.type ≠ "EQUAL_WEIGHT") (h2 : idx.type ≠ "CONSTANT")
    (h3 : idx.type ≠ "MARKET_CAP") :
    initializePortfolios df V (pre ++ idx :: post) =
      initializePortfolios df V (pre ++ post) ∧
    initializePortfolios df V [idx] = .ok [] := by
  have hc : calcFor idx.type = none := by
    simp [calcFor, h1, h2, h3]
  constructor
  · induction pre with
    | nil => simp [initializePortfolios, hc]
    | cons a t ih =>
      cases hca : calcFor a.type <;>
        simp [initializePortfolios, hca, ih]
  · simp [initializePortfolios, hc]

/-- Witness for C10: a FOO-typed definition between an EQUAL_WEIGHT and a
CONSTANT definition is skipped while both neighbours are processed. -/
theorem unknown_scheme_skipped_witness :
    initializePortfolios dfTen 1000 ([idxKnown] ++ idxUnknown :: [idxKnown2]) =
      initializePortfolios dfTen 1000 ([idxKnown] ++ [idxKnown2]) ∧
    initializePortfolios dfTen 1000 [idxUnknown] = .ok [] :=
  unknown_scheme_skipped dfTen 1000 [idxKnown] [idxKnown2] idxUnknown
    (by decide) (by decide) (by decide)

unseal Rat.mul Rat.add Rat.inv Rat.sub in
/-- C5 counterexample: member BBB has a column but no price at the resolved
start date 0, yet `_initialize_portfolios` does not fail: it produces a
portfolio in which BBB's holding is empty (NaN).  No
`MissingStartPriceError` is raised (none exists in the code). -/
theorem missing_start_price_counterexample :
    initializePortfolios dfMissB 1000 [idxMissB] =
      .ok [("idx", [("AAA", some 50), ("BBB", none)])] ∧
    ¬ ∃ e, initializePortfolios dfMissB 1000 [idxMissB] = Except.error e := by
  refine ⟨by decide, ?_⟩
  rintro ⟨e, he⟩
  rw [show initializePortfolios dfMissB 1000 [idxMissB] =
    .ok [("idx", [("AAA", some 50), ("BBB", none)])] by decide] at he
  exact Except.noConfusion he

/-- Member cells resolve once every member has a column. -/
lemma locRowAux_ok (df : WideDF) (i : Nat) (members : List Sym)
    (hcols : ∀ s ∈ members, (getCol df s).isSome) :
    locRowAux df i members = .ok (members.map fun s => (s, colAt df s i)) := by
  induction members with
  | nil => rfl
  | cons a t ih =>
    obtain ⟨col, hcol⟩ := Option.isSome_iff_exists.mp (hcols a (List.mem_cons_self a t))
    have iht := ih fun s hs => hcols s (List.mem_cons_of_mem a hs)
    simp only [locRowAux, hcol, iht, colAt, Option.getD_some, List.map_cons]

/-- `dfs.loc[start_date, members]` succeeds once the date row exists and
every member has a column, returning each member's (possibly missing) cell. -/
lemma locRow_ok (df : WideDF) (d : Nat) (i : Nat) (members : List Sym)
    (hi : dateIndex df.dates d = some i)
    (hcols : ∀ s ∈ members, (getCol df s).isSome) :
    locRow df d members = .ok (members.map fun s => (s, colAt df s i)) := by
  unfold locRow
  rw [hi]
  exact locRowAux_ok df i members hcols

/-- C5 amended: no `MissingStartPriceError` exists.  If the start-date row is
absent, the EQUAL_WEIGHT build fails with a `KeyError` naming the date; if
the row and every member column exist but a member's cell at the start date
is empty, the build succeeds and silently assigns that member an empty
holding. -/
theorem missing_start_price_behavior (df : WideDF) (d : Nat) (idx : IndexDef)
    (V : ℚ) (ht : idx.type = "EQUAL_WEIGHT") (hd : idx.createdDate = some d) :
    (dateIndex df.dates d = none →
      initializePortfolios df V [idx] = .error (.dateKey d)) ∧
    (∀ i, dateIndex df.dates d = some i →
      (∀ s ∈ idx.members, (getCol df s).isSome) →
      initializePortfolios df V [idx] =
        .ok [(idx.name, equalWeightHoldings V
          (idx.members.map fun s => (s, colAt df s i)))] ∧
      ∀ s ∈ idx.members, cellAt df d s = none →
        (s, (none : Option ℚ)) ∈ equalWeightHoldings V
          (idx.members.map fun s => (s, colAt df s i))) := by
  have hc : calcFor idx.type = some .eqW := by simp [calcFor, ht]
  constructor
  · intro hnone
    simp [initializePortfolios, hc, resolveStart, hd, runCalc, locRow, hnone]
  · intro i hi hcols
    have hrow := locRow_ok df d i idx.members hi hcols
    constructor
    · simp [initializePortfolios, hc, resolveStart, hd, runCalc, hrow]
    · intro s hs hcell
      have hcolat : colAt df s i = none := by
        obtain ⟨col, hcol⟩ := Option.isSome_iff_exists.mp (hcols s hs)
        simp only [cellAt, hcol, hi] at hcell
        simpa [colAt, hcol] using hcell
      have hmem : (s, (none : Option ℚ)) ∈ idx.members.map fun s => (s, colAt df s i) := by
        rcases List.mem_map.mp (List.mem_map_of_mem (fun s => (s, colAt df s i)) hs)
          with ⟨a, _, _⟩
        rw [← hcolat]
        exact List.mem_map_of_mem _ hs
      have := List.mem_map_of_mem
        (fun e : Sym × Option ℚ => (e.1, e.2.map fun p =>
          V / ((idx.members.map fun s => (s, colAt df s i)).length * p))) hmem
      simpa [equalWeightHoldings] using this

/-- Witness for C5 amended: the dfMissB/idxMissB instance discharges the
hypotheses; its start row exists at position 0 and BBB's empty cell yields
an empty holding. -/
theorem missing_start_price_behavior_witness :
    (dateIndex dfMissB.dates 0 = none →
      initializePortfolios dfMissB 1000 [idxMissB] = .error (.dateKey 0)) ∧
    (∀ i, dateIndex dfMissB.dates 0 = some i →
      (∀ s ∈ idxMissB.members, (getCol dfMissB s).isSome) →
      initializePortfolios dfMissB 1000 [idxMissB] =
        .ok [(idxMissB.name, equalWeightHoldings 1000
          (idxMissB.members.map fun s => (s, colAt dfMissB s i)))] ∧
      ∀ s ∈ idxMissB.members, cellAt dfMissB 0 s = none →
        (s, (none : Option ℚ)) ∈ equalWeightHoldings 1000
          (idxMissB.members.map fun s => (s, colAt dfMissB s i))) :=
  missing_start_price_behavior dfMissB 0 idxMissB 1000 rfl rfl

/-! # Series valuation lemmas (for C4) -/

lemma mem_of_lookup_eq_some {α β : Type} [BEq α] [LawfulBEq α]
    {l : List (α × β)} {s : α} {v : β}
    (h : l.lookup s = some v) : (s, v) ∈ l := by
  induction l with
  | nil => simp [List.lookup] at h
  | cons a t ih =>
    obtain ⟨k, b⟩ := a
    cases hbeq : (s == k) with
    | false =>
      simp only [List.lookup, hbeq] at h
      exact List.mem_cons_of_mem _ (ih h)
    | true =>
      simp only [List.lookup, hbeq] at h
      obtain rfl : b = v := by injection h
      have hk : s = k := eq_of_beq hbeq
      subst hk
      exact List.mem_cons_self _ _

lemma getD_seriesAdd (a b : List (Option ℚ)) (i : Nat)
    (ha : i < a.length) (hb : i < b.length) :
    (seriesAdd a b).getD i none = optAdd (a.getD i none) (b.getD i none) := by
  induction a generalizing b i with
  | nil => simp at ha
  | cons x xs ih =>
    cases b with
    | nil => simp at hb
    | cons y ys =>
      cases i with
      | zero => rfl
      | succ n =>
        simp only [seriesAdd, List.zipWith_cons_cons, List.getD_cons_succ]
        exact ih ys n (by simpa using ha) (by simpa using hb)

lemma length_seriesAdd (a b : List (Option ℚ)) :
    (seriesAdd a b).length = min a.length b.length := by
  simp [seriesAdd]

lemma foldl_seriesAdd_getD (l : List (List (Option ℚ))) (z : List (Option ℚ))
    (n i : Nat) (hz : z.length = n) (hl : ∀ s ∈ l, s.length = n) (hi : i < n) :
    (l.foldl seriesAdd z).getD i none =
      (l.map fun s => s.getD i none).foldl optAdd (z.getD i none) := by
  induction l generalizing z with
  | nil => rfl
  | cons a t ih =>
    have ha : a.length = n := hl a (List.mem_cons_self a t)
    have hza : (seriesAdd z a).length = n := by
      rw [length_seriesAdd, hz, ha, Nat.min_self]
    simp only [List.foldl_cons, List.map_cons]
    rw [ih (seriesAdd z a) hza fun s hs => hl s (List.mem_cons_of_mem a hs)]
    rw [getD_seriesAdd z a i (hz ▸ hi) (ha ▸ hi)]

lemma length_foldl_seriesAdd (l : List (List (Option ℚ))) (z : List (Option ℚ))
    (n : Nat) (hz : z.length = n) (hl : ∀ s ∈ l, s.length = n) :
    (l.foldl seriesAdd z).length = n := by
  induction l generalizing z with
  | nil => exact hz
  | cons a t ih =>
    have ha : a.length = n := hl a (List.mem_cons_self a t)
    have hza : (seriesAdd z a).length = n := by
      rw [length_seriesAdd, hz, ha, Nat.min_self]
    exact ih (seriesAdd z a) hza fun s hs => hl s (List.mem_cons_of_mem a hs)

lemma foldl_optAdd_none (l : List (Option ℚ)) : l.foldl optAdd none = none := by
  induction l with
  | nil => rfl
  | cons x t ih => simpa [List.foldl_cons, show optAdd none x = none from rfl] using ih

lemma foldl_optAdd_some (l : List (Option ℚ)) (a : ℚ) :
    l.foldl optAdd (some a) =
      if ∀ v ∈ l, v.isSome then some (a + (l.map fun v => v.getD 0).sum) else none := by
  induction l generalizing a with
  | nil => simp
  | cons x t ih =>
    cases x with
    | none =>
      have hno : ¬ ∀ v ∈ (none : Option ℚ) :: t, v.isSome = true := by
        intro h
        simpa using h none (List.mem_cons_self none t)
      simp [List.foldl_cons, show optAdd (some a) none = none from rfl,
        foldl_optAdd_none, hno]
    | some b =>
      simp only [List.foldl_cons, show optAdd (some a) (some b) = some (a + b) from rfl, ih]
      by_cases h : ∀ v ∈ t, v.isSome = true
      · have h2 : ∀ v ∈ some b :: t, v.isSome = true := by
          intro v hv
          rcases List.mem_cons.mp hv with rfl | hv
          · rfl
          · exact h v hv
        rw [if_pos h, if_pos h2, List.map_cons, List.sum_cons, Option.getD_some]
        congr 1
        ring
      · have h2 : ¬ ∀ v ∈ some b :: t, v.isSome = true := fun hh =>
          h fun v hv => hh v (List.mem_cons_of_mem _ hv)
        rw [if_neg h, if_neg h2]

lemma getD_zeroSeries (n i : Nat) (hi : i < n) :
    (zeroSeries n).getD i none = some 0 := by
  induction n generalizing i with
  | zero => omega
  | succ m ih =>
    cases i with
    | zero => rfl
    | succ j =>
      simp only [zeroSeries, List.replicate_succ, List.getD_cons_succ]
      exact ih j (by omega)

lemma getD_seriesMulShares (col : List (Option ℚ)) (sh : Option ℚ) (i : Nat)
    (hi : i < col.length) :
    (seriesMulShares col sh).getD i none = optMul (col.getD i none) sh := by
  have hg : col[i]? = some col[i] := List.getElem?_eq_getElem hi
  simp [seriesMulShares, List.getD_eq_getElem?_getD, List.getElem?_map, hg]

lemma memberSeries_ok (df : WideDF) (p : List (Sym × Option ℚ))
    (series : List (List (Option ℚ))) (h : memberSeries df p = .ok series) :
    series = (p.map fun e => seriesMulShares ((getCol df e.1).getD []) e.2) ∧
    ∀ e ∈ p, (getCol df e.1).isSome := by
  induction p generalizing series with
  | nil =>
    have h2 : (Except.ok ([] : List (List (Option ℚ))) : Except KeyErr _) = .ok series := h
    obtain rfl : series = [] := by
      injection h2 with h3
      exact h3.symm
    simp
  | cons a t ih =>
    cases hcol : getCol df a.1 with
    | none => simp [memberSeries, hcol] at h
    | some col =>
      cases hrec : memberSeries df t with
      | error e => simp [memberSeries, hcol, hrec] at h
      | ok tail =>
        obtain rfl : series = seriesMulShares col a.2 :: tail := by
          simpa [memberSeries, hcol, hrec] using h.symm
        obtain ⟨htail, hmem⟩ := ih tail hrec
        refine ⟨?_, ?_⟩
        · rw [List.map_cons, ← htail, hcol]
          rfl
        · intro e he
          rcases List.mem_cons.mp he with rfl | he
          · simp [hcol]
          · exact hmem e he

unseal Rat.mul Rat.add Rat.inv Rat.sub in
/-- C4 counterexample: over dfSer, member B has a price at date 0 but not at
date 1.  `_calculate_indexes` values the portfolio as `[5, NaN]`: at date 1
the missing member does not contribute 0 (the claim would give 4, the other
member's contribution); the whole date is marked missing instead. -/
theorem calc_indexes_missing_price_counterexample :
    portfolioSeries dfSer pSer = .ok [some 5, none] ∧
    portfolioSeries dfSer pSer ≠ .ok [some 5, some 4] := by
  exact ⟨by decide, by decide⟩

/-- C4 amended: `_calculate_indexes` raises no error per date, and for every
date position it produces the sum `Σ holding(s) × price(s, date)` when every
member has a price there, but a missing value (NaN, not a partial sum) as
soon as any member lacks a price on that date. -/
theorem calc_indexes_series_spec (df : WideDF) (p : List (Sym × Option ℚ))
    (ser : List (Option ℚ)) (hwf : TableWF df)
    (hok : portfolioSeries df p = .ok ser)
    (hh : ∀ e ∈ p, e.2.isSome) :
    ser.length = df.dates.length ∧
    ∀ i, i < df.dates.length →
      ser.getD i none =
        (if ∀ e ∈ p, (colAt df e.1 i).isSome
         then some ((p.map fun e => e.2.getD 0 * (colAt df e.1 i).getD 0).sum)
         else none) := by
  cases hms : memberSeries df p with
  | error e => simp [portfolioSeries, hms] at hok
  | ok series0 =>
    obtain rfl : ser = series0.foldl seriesAdd (zeroSeries df.dates.length) := by
      simpa [portfolioSeries, hms] using hok.symm
    obtain ⟨rfl, hcols⟩ := memberSeries_ok df p series0 hms
    have hlen : ∀ s ∈ p.map fun e => seriesMulShares ((getCol df e.1).getD []) e.2,
        s.length = df.dates.length := by
      intro s hs
      rcases List.mem_map.mp hs with ⟨e, he, rfl⟩
      obtain ⟨col, hcol⟩ := Option.isSome_iff_exists.mp (hcols e he)
      have hmem := mem_of_lookup_eq_some hcol
      have := hwf (e.1, col) hmem
      simp [seriesMulShares, hcol, this]
    have hzlen : (zeroSeries df.dates.length).length = df.dates.length := by
      simp [zeroSeries]
    refine ⟨length_foldl_seriesAdd _ _ _ hzlen hlen, ?_⟩
    intro i hi
    rw [foldl_seriesAdd_getD _ _ df.dates.length i hzlen hlen hi]
    rw [getD_zeroSeries df.dates.length i hi]
    rw [foldl_optAdd_some]
    have hmval : ∀ e ∈ p,
        (seriesMulShares ((getCol df e.1).getD []) e.2).getD i none =
          optMul (colAt df e.1 i) e.2 := by
      intro e he
      obtain ⟨col, hcol⟩ := Option.isSome_iff_exists.mp (hcols e he)
      have hclen : col.length = df.dates.length :=
        hwf (e.1, col) (mem_of_lookup_eq_some hcol)
      rw [hcol]
      simp only [Option.getD_some]
      rw [getD_seriesMulShares col e.2 i (by omega)]
      simp [colAt, hcol]
    have hml : ((p.map fun e => seriesMulShares ((getCol df e.1).getD []) e.2).map
        fun s => s.getD i none) = p.map fun e => optMul (colAt df e.1 i) e.2 := by
      rw [List.map_map]
      exact List.map_congr_left hmval
    rw [hml]
    have hcond : (∀ v ∈ p.map (fun e => optMul (colAt df e.1 i) e.2), v.isSome) ↔
        ∀ e ∈ p, (colAt df e.1 i).isSome := by
      constructor
      · intro hv e he
        have := hv _ (List.mem_map_of_mem _ he)
        obtain ⟨h2, hh2⟩ := Option.isSome_iff_exists.mp (hh e he)
        cases hca : colAt df e.1 i with
        | none => rw [hca, hh2] at this; simp [optMul] at this
        | some q => rfl
      · intro hv v hvm
        rcases List.mem_map.mp hvm with ⟨e, he, rfl⟩
        obtain ⟨q, hq⟩ := Option.isSome_iff_exists.mp (hv e he)
        obtain ⟨h2, hh2⟩ := Option.isSome_iff_exists.mp (hh e he)
        simp [optMul, hq, hh2]
    by_cases hc : ∀ e ∈ p, (colAt df e.1 i).isSome
    · rw [if_pos (hcond.mpr hc), if_pos hc]
      rw [List.map_map]
      have heq : (p.map ((fun v : Option ℚ => v.getD 0) ∘
            fun e : Sym × Option ℚ => optMul (colAt df e.1 i) e.2)) =
          p.map fun e => e.2.getD 0 * (colAt df e.1 i).getD 0 := by
        refine List.map_congr_left fun e he => ?_
        obtain ⟨q, hq⟩ := Option.isSome_iff_exists.mp (hc e he)
        obtain ⟨h2, hh2⟩ := Option.isSome_iff_exists.mp (hh e he)
        simp only [Function.comp_apply, hq, hh2]
        rw [show optMul (some q) (some h2) = some (q * h2) from rfl]
        simp [mul_comm]
      rw [heq, zero_add]
    · rw [if_neg (fun hx => hc (hcond.mp hx)), if_neg hc]

unseal Rat.mul Rat.add Rat.inv Rat.sub in
/-- Witness for C4 amended: the dfSer/pSer instance discharges the
hypotheses; its series is `[some 5, none]`. -/
theorem calc_indexes_series_spec_witness :
    [some (5 : ℚ), none].length = dfSer.dates.length ∧
    ∀ i, i < dfSer.dates.length →
      [some (5 : ℚ), none].getD i none =
        (if ∀ e ∈ pSer, (colAt dfSer e.1 i).isSome
         then some ((pSer.map fun e => e.2.getD 0 * (colAt dfSer e.1 i).getD 0).sum)
         else none) :=
  calc_indexes_series_spec dfSer pSer [some 5, none] (by decide) (by decide)
    (by decide)

/-! # Column-writing frame lemmas (for C9 and C6) -/

lemma lookup_map_replace {α β : Type} [BEq α] [LawfulBEq α] [DecidableEq α]
    (l : List (α × β)) (name : α) (v : β)
    (c : α) (hne : c ≠ name) :
    (l.map fun e => if e.1 = name then (name, v) else e).lookup c = l.lookup c := by
  induction l with
  | nil => rfl
  | cons a t ih =>
    obtain ⟨k, b⟩ := a
    by_cases hk : k = name
    · subst hk
      have h1 : (c == k) = false := beq_eq_false_iff_ne.mpr hne
      simp only [List.map_cons, if_pos (rfl : (k, b).1 = k)]
      simp [List.lookup, h1, ih]
    · have h2 : ((k, b).1 = name) = False := by simp [hk]
      simp only [List.map_cons, h2, if_false]
      cases hbeq : (c == k) <;> simp [List.lookup, hbeq, ih]

lemma lookup_map_replace_self {α β : Type} [BEq α] [LawfulBEq α] [DecidableEq α]
    (l : List (α × β)) (name : α) (v : β)
    (hex : (l.lookup name).isSome) :
    (l.map fun e => if e.1 = name then (name, v) else e).lookup name = some v := by
  induction l with
  | nil => simp [List.lookup] at hex
  | cons a t ih =>
    obtain ⟨k, b⟩ := a
    by_cases hk : k = name
    · subst hk
      simp only [List.map_cons, if_pos (rfl : (k, b).1 = k)]
      simp [List.lookup]
    · have hbeq : (name == k) = false :=
        beq_eq_false_iff_ne.mpr fun he => hk he.symm
      simp only [List.lookup, hbeq] at hex
      have h2 : ((k, b).1 = name) = False := by simp [hk]
      simp only [List.map_cons, h2, if_false]
      simpa [List.lookup, hbeq] using ih hex

lemma lookup_append_single_ne {α β : Type} [BEq α] [LawfulBEq α]
    (l : List (α × β)) (name : α) (v : β)
    (c : α) (hne : c ≠ name) :
    (l ++ [(name, v)]).lookup c = l.lookup c := by
  induction l with
  | nil => simp [List.lookup, beq_eq_false_iff_ne.mpr hne]
  | cons a t ih =>
    obtain ⟨k, b⟩ := a
    cases hbeq : (c == k) <;> simp [List.lookup, hbeq, ih]

lemma lookup_append_single_self {α β : Type} [BEq α] [LawfulBEq α]
    (l : List (α × β)) (name : α) (v : β)
    (hnone : l.lookup name = none) :
    (l ++ [(name, v)]).lookup name = some v := by
  induction l with
  | nil => simp [List.lookup]
  | cons a t ih =>
    obtain ⟨k, b⟩ := a
    cases hbeq : (name == k) with
    | true => simp [List.lookup, hbeq] at hnone
    | false =>
      simp only [List.lookup, hbeq] at hnone
      simpa [List.lookup, hbeq] using ih hnone

lemma dates_setCol (df : WideDF) (name : Sym) (vals : List (Option ℚ)) :
    (setCol df name vals).dates = df.dates := by
  unfold setCol
  by_cases hex : (getCol df name).isSome
  · rw [if_pos hex]
  · rw [if_neg hex]

lemma getCol_setCol_ne (df : WideDF) (name : Sym) (vals : List (Option ℚ))
    (c : Sym) (hne : c ≠ name) :
    getCol (setCol df name vals) c = getCol df c := by
  unfold setCol
  by_cases hex : (getCol df name).isSome
  · rw [if_pos hex]
    exact lookup_map_replace df.cols name vals c hne
  · rw [if_neg hex]
    exact lookup_append_single_ne df.cols name vals c hne

lemma getCol_setCol_self (df : WideDF) (name : Sym) (vals : List (Option ℚ)) :
    getCol (setCol df name vals) name = some vals := by
  unfold setCol
  by_cases hex : (getCol df name).isSome
  · rw [if_pos hex]
    exact lookup_map_replace_self df.cols name vals hex
  · rw [if_neg hex]
    exact lookup_append_single_self df.cols name vals
      (Option.not_isSome_iff_eq_none.mp hex)

lemma calcIndexes_frame (ports : List (Sym × List (Sym × Option ℚ))) :
    ∀ df df', calcIndexes df ports = .ok df' →
      df'.dates = df.dates ∧
      ∀ c, c ∉ ports.map Prod.fst → getCol df' c = getCol df c := by
  induction ports with
  | nil =>
    intro df df' h
    have h2 : (Except.ok df : Except KeyErr WideDF) = .ok df' := h
    obtain rfl : df' = df := by
      injection h2 with h3
      exact h3.symm
    exact ⟨rfl, fun c _ => rfl⟩
  | cons e t ih =>
    intro df df' h
    cases hps : portfolioSeries df e.2 with
    | error err => simp [calcIndexes, hps] at h
    | ok s =>
      have h2 : calcIndexes (setCol df e.1 s) t = .ok df' := by
        simpa [calcIndexes, hps] using h
      obtain ⟨hd, hcols⟩ := ih (setCol df e.1 s) df' h2
      constructor
      · rw [hd]
        exact dates_setCol df e.1 s
      · intro c hc
        simp only [List.map_cons, List.mem_cons, not_or] at hc
        rw [hcols c hc.2, getCol_setCol_ne df e.1 s c hc.1]

lemma comparisonRows_ok {df : WideDF} {indexName compName : Sym}
    {rows : List (Nat × ℚ × ℚ)}
    (h : comparisonRows df indexName compName = .ok rows) :
    ∃ idxCol compCol, getCol df indexName = some idxCol ∧
      getCol df compName = some compCol ∧
      rows = sortRows (bothPresentRows df.dates idxCol compCol) := by
  unfold comparisonRows at h
  cases h1 : getCol df indexName with
  | none => simp [h1] at h
  | some idxCol =>
    cases h2 : getCol df compName with
    | none => simp [h1, h2] at h
    | some compCol =>
      simp only [h1, h2, Except.ok.injEq] at h
      exact ⟨idxCol, compCol, rfl, rfl, h.symm⟩

lemma getComparisonDataframe_inv {df : WideDF} {defs : List IndexDef} {V : ℚ}
    {indexName compSym : Sym} {compShares : ℚ} {df2 : WideDF}
    {rows : List (Nat × ℚ × ℚ)}
    (h : getComparisonDataframe df defs V indexName compSym compShares = .ok (df2, rows)) :
    ∃ shares col,
      getCol df compSym = some col ∧
      df2 = setCol df (compSym ++ "_comparison") (seriesMulShares col shares) ∧
      comparisonRows df2 indexName (compSym ++ "_comparison") = .ok rows := by
  unfold getComparisonDataframe at h
  cases hrs : resolveShares df defs V indexName compSym compShares with
  | error e => simp [hrs] at h
  | ok shares =>
    cases hcol : getCol df compSym with
    | none => simp [hrs, hcol] at h
    | some col =>
      simp only [hrs, hcol] at h
      cases hcr : comparisonRows
          (setCol df (compSym ++ "_comparison") (seriesMulShares col shares))
          indexName (compSym ++ "_comparison") with
      | error e => simp [hcr] at h
      | ok rows0 =>
        simp only [hcr, Except.ok.injEq, Prod.mk.injEq] at h
        obtain ⟨hdf, hrows⟩ := h
        refine ⟨shares, col, rfl, hdf.symm, ?_⟩
        rw [← hdf, ← hrows]
        exact hcr

unseal Rat.mul Rat.add Rat.inv Rat.sub in
/-- C9 counterexample: `_calculate_indexes` mutates the shared price table:
after valuing one portfolio over dfMut the table gains the index column I,
so its column set differs from the original. -/
theorem price_table_mutation_counterexample :
    calcIndexes dfMut portsMut = .ok dfMut2 ∧
    colNames dfMut2 ≠ colNames dfMut := by
  exact ⟨by decide, by decide⟩

/-- C9 amended: index valuation and comparison construction write new
columns (each index's name, the benchmark's `_comparison` column) into the
shared table, but they preserve the date index and every column other than
the ones they write: after `_calculate_indexes` every column not named by a
portfolio is unchanged, and after `get_comparison_dataframe` every column
other than the written comparison column is unchanged. -/
theorem table_frame_spec :
    (∀ ports df df2, calcIndexes df ports = .ok df2 →
      df2.dates = df.dates ∧
      ∀ c, c ∉ ports.map Prod.fst → getCol df2 c = getCol df c) ∧
    (∀ df defs V indexName compSym compShares df2 rows,
      getComparisonDataframe df defs V indexName compSym compShares = .ok (df2, rows) →
      df2.dates = df.dates ∧
      ∀ c, c ≠ compSym ++ "_comparison" → getCol df2 c = getCol df c) := by
  constructor
  · intro ports df df2 h
    exact calcIndexes_frame ports df df2 h
  · intro df defs V indexName compSym compShares df2 rows h
    obtain ⟨shares, col, hcol, hdf, hcr⟩ := getComparisonDataframe_inv h
    subst hdf
    constructor
    · exact dates_setCol df _ _
    · intro c hc
      exact getCol_setCol_ne df _ _ c hc

unseal Rat.mul Rat.add Rat.inv Rat.sub in
/-- Witness for C9 amended: instantiated on the dfMut valuation and the
dfCmp comparison; the original symbol columns are untouched. -/
theorem table_frame_spec_witness :
    (dfMut2.dates = dfMut.dates ∧
      ∀ c, c ∉ portsMut.map Prod.fst → getCol dfMut2 c = getCol dfMut c) ∧
    (dfCmp2.dates = dfCmp.dates ∧
      ∀ c, c ≠ "SPY" ++ "_comparison" → getCol dfCmp2 c = getCol dfCmp c) := by
  constructor
  · exact table_frame_spec.1 portsMut dfMut dfMut2 (by decide)
  · exact table_frame_spec.2 dfCmp [] 10000 "IDX" "SPY" 1 dfCmp2
      [(3, 2, 5), (4, 3, 6), (5, 4, 7)] (by decide)

/-! # Comparison-report lemmas (for C6) -/

lemma dateIndex_get {l : List Nat} {d i : Nat} (h : dateIndex l d = some i) :
    l[i]? = some d := by
  induction l generalizing i with
  | nil => simp [dateIndex] at h
  | cons a t ih =>
    by_cases ha : a = d
    · rw [dateIndex, if_pos ha] at h
      obtain rfl : i = 0 := by
        injection h with h2
        exact h2.symm
      simpa using ha
    · rw [dateIndex, if_neg ha] at h
      cases hj : dateIndex t d with
      | none => rw [hj] at h; simp at h
      | some j =>
        rw [hj] at h
        simp only [Option.map_some'] at h
        obtain rfl : i = j + 1 := by
          injection h with h2
          exact h2.symm
        simpa using ih hj

lemma get_dateIndex {l : List Nat} (hnd : l.Nodup) {i d : Nat}
    (h : l[i]? = some d) : dateIndex l d = some i := by
  induction l generalizing i with
  | nil => simp at h
  | cons a t ih =>
    simp only [List.nodup_cons] at hnd
    cases i with
    | zero =>
      simp only [List.getElem?_cons_zero] at h
      obtain rfl : a = d := by injection h
      simp [dateIndex]
    | succ j =>
      simp only [List.getElem?_cons_succ] at h
      have hd : d ∈ t := List.mem_iff_getElem?.mpr ⟨j, h⟩
      have ha : a ≠ d := fun he => hnd.1 (he ▸ hd)
      rw [dateIndex, if_neg ha, ih hnd.2 h]
      rfl

lemma dateIndex_isSome_iff_mem {l : List Nat} {d : Nat} :
    (dateIndex l d).isSome ↔ d ∈ l := by
  induction l with
  | nil => simp [dateIndex]
  | cons a t ih =>
    by_cases ha : a = d
    · simp [dateIndex, ha]
    · rw [dateIndex, if_neg ha, Option.isSome_map']
      rw [ih, List.mem_cons]
      constructor
      · exact Or.inr
      · rintro (rfl | h)
        · exact absurd rfl ha
        · exact h

lemma TableWF_setCol (df : WideDF) (name : Sym) (vals : List (Option ℚ))
    (hwf : TableWF df) (hv : vals.length = df.dates.length) :
    TableWF (setCol df name vals) := by
  intro c hc
  rw [dates_setCol]
  revert hc
  unfold setCol
  by_cases hex : (getCol df name).isSome
  · rw [if_pos hex]
    intro hc
    rcases List.mem_map.mp hc with ⟨e, he, rfl⟩
    by_cases he1 : e.1 = name
    · rw [if_pos he1]
      exact hv
    · rw [if_neg he1]
      exact hwf e he
  · rw [if_neg hex]
    intro hc
    rcases List.mem_append.mp hc with hc | hc
    · exact hwf c hc
    · obtain rfl : c = (name, vals) := by simpa using hc
      exact hv

lemma mem_bothPresentRows {dates : List Nat} {a b : List (Option ℚ)}
    (hnd : dates.Nodup) (ha : a.length = dates.length) (hb : b.length = dates.length)
    (d : Nat) (x y : ℚ) :
    (d, x, y) ∈ bothPresentRows dates a b ↔
      ∃ i, dateIndex dates d = some i ∧
        a.getD i none = some x ∧ b.getD i none = some y := by
  unfold bothPresentRows
  rw [List.mem_filterMap]
  constructor
  · rintro ⟨⟨d0, u, v⟩, he, hpick⟩
    cases u with
    | none => simp at hpick
    | some ux =>
      cases v with
      | none => simp at hpick
      | some vy =>
        simp only [Option.some.injEq, Prod.mk.injEq] at hpick
        obtain ⟨rfl, rfl, rfl⟩ := hpick
        obtain ⟨i, hi⟩ := List.mem_iff_getElem?.mp he
        obtain ⟨h1, h23⟩ := List.getElem?_zip_eq_some.mp hi
        obtain ⟨h2, h3⟩ := List.getElem?_zip_eq_some.mp h23
        refine ⟨i, get_dateIndex hnd h1, ?_, ?_⟩
        · simp [List.getD_eq_getElem?_getD, h2]
        · simp [List.getD_eq_getElem?_getD, h3]
  · rintro ⟨i, hdi, hx, hy⟩
    have h1 : dates[i]? = some d := dateIndex_get hdi
    have hilen : i < dates.length := by
      rcases List.getElem?_eq_some.mp h1 with ⟨hlt, _⟩
      exact hlt
    have h2 : a[i]? = some (some x) := by
      have hlt : i < a.length := by omega
      have hg := List.getElem?_eq_getElem hlt
      rw [List.getD_eq_getElem?_getD, hg] at hx
      rw [hg]
      simpa using hx
    have h3 : b[i]? = some (some y) := by
      have hlt : i < b.length := by omega
      have hg := List.getElem?_eq_getElem hlt
      rw [List.getD_eq_getElem?_getD, hg] at hy
      rw [hg]
      simpa using hy
    refine ⟨(d, some x, some y), ?_, rfl⟩
    exact List.mem_iff_getElem?.mpr
      ⟨i, List.getElem?_zip_eq_some.mpr
        ⟨h1, List.getElem?_zip_eq_some.mpr ⟨h2, h3⟩⟩⟩

unseal Rat.mul Rat.add Rat.inv Rat.sub in
/-- C6 counterexample: with the index column covering dates 2..5 and the
benchmark only 3..5, `get_comparison_dataframe` returns only 3 rows: the
date (2) where exactly one value is present is dropped by `dropna()`, not
retained with an absent benchmark column. -/
theorem comparison_drops_partial_rows_counterexample :
    getComparisonDataframe dfCmp [] 10000 "IDX" "SPY" 1 =
      .ok (dfCmp2, [(3, 2, 5), (4, 3, 6), (5, 4, 7)]) ∧
    ∀ x y : ℚ, (2, x, y) ∉ [((3 : Nat), (2 : ℚ), (5 : ℚ)), (4, 3, 6), (5, 4, 7)] := by
  constructor
  · decide
  · intro x y hmem
    simp [Prod.ext_iff] at hmem

/-- C6 amended: the comparison output contains exactly the dates where BOTH
the index value and the benchmark value are present (a date with only one
value present is dropped by `dropna()`, just like a date with neither), and
the rows are sorted ascending by date. -/
theorem comparison_rows_spec (df : WideDF) (defs : List IndexDef) (V : ℚ)
    (indexName compSym : Sym) (compShares : ℚ) (df2 : WideDF)
    (rows : List (Nat × ℚ × ℚ))
    (hwf : TableWF df) (hnd : df.dates.Nodup)
    (hok : getComparisonDataframe df defs V indexName compSym compShares =
      .ok (df2, rows)) :
    rows.Sorted rowLE ∧
    ∀ d x y, ((d, x, y) ∈ rows ↔
      d ∈ df2.dates ∧ cellAt df2 d indexName = some x ∧
      cellAt df2 d (compSym ++ "_comparison") = some y) := by
  obtain ⟨shares, col, hcol, hdf, hcr⟩ := getComparisonDataframe_inv hok
  obtain ⟨idxCol, compCol, hic, hcc, hrows⟩ := comparisonRows_ok hcr
  have hclen : col.length = df.dates.length :=
    hwf (compSym, col) (mem_of_lookup_eq_some hcol)
  have hwf2 : TableWF df2 := by
    rw [hdf]
    refine TableWF_setCol df _ _ hwf ?_
    simp [seriesMulShares, hclen]
  have hdates : df2.dates = df.dates := by
    rw [hdf]
    exact dates_setCol df _ _
  have hnd2 : df2.dates.Nodup := by
    rw [hdates]
    exact hnd
  have hilen : idxCol.length = df2.dates.length :=
    hwf2 (indexName, idxCol) (mem_of_lookup_eq_some hic)
  have hcolen : compCol.length = df2.dates.length :=
    hwf2 (compSym ++ "_comparison", compCol) (mem_of_lookup_eq_some hcc)
  subst hrows
  refine ⟨List.sorted_insertionSort rowLE _, ?_⟩
  intro d x y
  rw [show sortRows (bothPresentRows df2.dates idxCol compCol) =
    List.insertionSort rowLE (bothPresentRows df2.dates idxCol compCol) from rfl]
  rw [List.mem_insertionSort]
  rw [mem_bothPresentRows hnd2 hilen hcolen d x y]
  constructor
  · rintro ⟨i, hdi, hx, hy⟩
    refine ⟨?_, ?_, ?_⟩
    · exact dateIndex_isSome_iff_mem.mp (by rw [hdi]; rfl)
    · unfold cellAt
      rw [hic, hdi]
      exact hx
    · unfold cellAt
      rw [hcc, hdi]
      exact hy
  · rintro ⟨hdm, hx, hy⟩
    obtain ⟨i, hi⟩ := Option.isSome_iff_exists.mp (dateIndex_isSome_iff_mem.mpr hdm)
    refine ⟨i, hi, ?_, ?_⟩
    · unfold cellAt at hx
      rw [hic, hi] at hx
      exact hx
    · unfold cellAt at hy
      rw [hcc, hi] at hy
      exact hy

unseal Rat.mul Rat.add Rat.inv Rat.sub in
/-- Witness for C6 amended: the dfCmp comparison discharges the hypotheses;
its three output rows are exactly the dates where both columns are present,
in ascending order. -/
theorem comparison_rows_spec_witness :
    ([((3 : Nat), (2 : ℚ), (5 : ℚ)), (4, 3, 6), (5, 4, 7)].Sorted rowLE) ∧
    ∀ d x y, ((d, x, y) ∈ [((3 : Nat), (2 : ℚ), (5 : ℚ)), (4, 3, 6), (5, 4, 7)] ↔
      d ∈ dfCmp2.dates ∧ cellAt dfCmp2 d "IDX" = some x ∧
      cellAt dfCmp2 d ("SPY" ++ "_comparison") = some y) :=
  comparison_rows_spec dfCmp [] 10000 "IDX" "SPY" 1 dfCmp2
    [(3, 2, 5), (4, 3, 6), (5, 4, 7)] (by decide) (by decide) (by decide)

/-! # Quote ingestion lemmas (for C7) -/

lemma map_fst_keyed {α β : Type} (g : α → β) (l : List α) :
    ((l.map fun s => (s, g s)).map Prod.fst) = l := by
  induction l with
  | nil => rfl
  | cons a t ih => simp [ih]

lemma lookup_upsert_self (db : List (QuoteKey × ℚ)) (q : DBQuote) :
    (upsertQuote db q).lookup (dbKey q) = some q.close := by
  unfold upsertQuote
  by_cases hex : (db.lookup (dbKey q)).isSome
  · rw [if_pos hex]
    exact lookup_map_replace_self db (dbKey q) q.close hex
  · rw [if_neg hex]
    exact lookup_append_single_self db (dbKey q) q.close
      (Option.not_isSome_iff_eq_none.mp hex)

lemma lookup_upsert_ne (db : List (QuoteKey × ℚ)) (q : DBQuote) (k : QuoteKey)
    (hk : k ≠ dbKey q) :
    (upsertQuote db q).lookup k = db.lookup k := by
  unfold upsertQuote
  by_cases hex : (db.lookup (dbKey q)).isSome
  · rw [if_pos hex]
    exact lookup_map_replace db (dbKey q) q.close k hk
  · rw [if_neg hex]
    exact lookup_append_single_ne db (dbKey q) q.close k hk

lemma saveQuotes_lookup (db0 : List (QuoteKey × ℚ)) (qs : List DBQuote)
    (k : QuoteKey) :
    (saveQuotes db0 qs).lookup k =
      (match (qs.filter fun q => dbKey q == k).getLast? with
       | some q => some q.close
       | none => db0.lookup k) := by
  induction qs generalizing db0 with
  | nil => rfl
  | cons q t ih =>
    rw [show saveQuotes db0 (q :: t) = saveQuotes (upsertQuote db0 q) t from rfl,
      ih (upsertQuote db0 q)]
    by_cases hq : dbKey q = k
    · have hqb : (dbKey q == k) = true := by simp [hq]
      rw [List.filter_cons, if_pos hqb]
      cases hft : (t.filter fun q2 => dbKey q2 == k) with
      | nil =>
        simp only [List.getLast?_nil, List.getLast?_singleton]
        rw [← hq]
        exact lookup_upsert_self db0 q
      | cons b l2 => rfl
    · have hqb : ¬ ((dbKey q == k) = true) := by simp [hq]
      rw [List.filter_cons, if_neg hqb]
      cases hft : (t.filter fun q2 => dbKey q2 == k) with
      | nil =>
        simp only [List.getLast?_nil]
        exact lookup_upsert_ne db0 q k fun he => hq he.symm
      | cons b l2 => rfl

unseal Rat.mul Rat.add Rat.inv Rat.sub in
/-- C7 counterexample: two quotes for the same (date, symbol) with closes 10
and 20.  The wide PriceTable built by `make_wide_dataframe` records their
MEAN 15, not the later entry's 20 (which is what the DB upsert keeps). -/
theorem duplicate_quotes_mean_counterexample :
    cellAt (makeWideDataframe dupQuotes) 1 "A" = some 15 ∧
    saveQuotes [] dupDBQuotes = [((1, "A", "N"), 20)] ∧
    (15 : ℚ) ≠ 20 := by
  exact ⟨by decide, by decide, by decide⟩

/-- C7 amended: the database upsert of `save_quotes` is last-write-wins per
(date, symbol, namespace) key, but the wide PriceTable built by
`make_wide_dataframe` aggregates all duplicate (date, symbol) closes by
their arithmetic mean — the stored price is the mean of the duplicates, not
the later entry. -/
theorem duplicate_quotes_spec (rows : List QuoteRow) (d : Nat) (s : Sym)
    (db0 : List (QuoteKey × ℚ)) (qs : List DBQuote) (k : QuoteKey)
    (hne : (rows.filter fun r => r.date == d && r.symbol == s) ≠ []) :
    cellAt (makeWideDataframe rows) d s =
      some ((((rows.filter fun r => r.date == d && r.symbol == s).map
          (fun r => r.close)).sum) /
        ((((rows.filter fun r => r.date == d && r.symbol == s).map
          (fun r => r.close)).length : ℚ))) ∧
    (saveQuotes db0 qs).lookup k =
      (match (qs.filter fun q => dbKey q == k).getLast? with
       | some q => some q.close
       | none => db0.lookup k) := by
  refine ⟨?_, saveQuotes_lookup db0 qs k⟩
  obtain ⟨r, hr⟩ := List.exists_mem_of_ne_nil _ hne
  obtain ⟨hrmem, hrpred⟩ := List.mem_filter.mp hr
  obtain ⟨hrd, hrs⟩ : r.date = d ∧ r.symbol = s := by
    simpa using hrpred
  have hcellval : pivotCell rows d s =
      some ((((rows.filter fun r => r.date == d && r.symbol == s).map
          (fun r => r.close)).sum) /
        ((((rows.filter fun r => r.date == d && r.symbol == s).map
          (fun r => r.close)).length : ℚ))) := by
    have hxe : ((rows.filter fun r => r.date == d && r.symbol == s).map
        (fun r => r.close)).isEmpty = false := by
      cases hf : rows.filter fun r => r.date == d && r.symbol == s with
      | nil => exact absurd hf hne
      | cons a t => simp [hf]
    simp only [pivotCell]
    rw [if_neg (by simp [hxe])]
  have hdmem : d ∈ ((rows.map fun r => r.date).dedup).insertionSort (· ≤ ·) := by
    rw [List.mem_insertionSort, List.mem_dedup]
    exact hrd ▸ List.mem_map_of_mem (fun r => r.date) hrmem
  have hsmem : s ∈ ((rows.map fun r => r.symbol).dedup).insertionSort (· ≤ ·) := by
    rw [List.mem_insertionSort, List.mem_dedup]
    exact hrs ▸ List.mem_map_of_mem (fun r => r.symbol) hrmem
  have hdnd : (((rows.map fun r => r.date).dedup).insertionSort (· ≤ ·)).Nodup :=
    (List.perm_insertionSort _ _).nodup_iff.mpr (List.nodup_dedup _)
  have hsnd : (((rows.map fun r => r.symbol).dedup).insertionSort (· ≤ ·)).Nodup :=
    (List.perm_insertionSort _ _).nodup_iff.mpr (List.nodup_dedup _)
  obtain ⟨i, hi⟩ := Option.isSome_iff_exists.mp (dateIndex_isSome_iff_mem.mpr hdmem)
  have hdig := dateIndex_get hi
  have hcolmem : (s, (((rows.map fun r => r.date).dedup).insertionSort (· ≤ ·)).map
        fun d2 => pivotCell rows d2 s) ∈
      ((((rows.map fun r => r.symbol).dedup).insertionSort (· ≤ ·)).map
        fun s2 => (s2, (((rows.map fun r => r.date).dedup).insertionSort (· ≤ ·)).map
          fun d2 => pivotCell rows d2 s2)) :=
    List.mem_map_of_mem _ hsmem
  have hany : ((((rows.map fun r => r.date).dedup).insertionSort (· ≤ ·)).map
      fun d2 => pivotCell rows d2 s).any Option.isSome = true := by
    refine List.any_eq_true.mpr ⟨pivotCell rows d s, List.mem_map_of_mem _ hdmem, ?_⟩
    rw [hcellval]
    rfl
  have hgc : getCol (makeWideDataframe rows) s =
      some ((((rows.map fun r => r.date).dedup).insertionSort (· ≤ ·)).map
        fun d2 => pivotCell rows d2 s) := by
    show (((((rows.map fun r => r.symbol).dedup).insertionSort (· ≤ ·)).map
        fun s2 => (s2, (((rows.map fun r => r.date).dedup).insertionSort (· ≤ ·)).map
          fun d2 => pivotCell rows d2 s2)).filter
        fun c => c.2.any Option.isSome).lookup s = _
    refine lookup_eq_of_mem_of_nodup ?_ (List.mem_filter.mpr ⟨hcolmem, hany⟩)
    refine List.Nodup.sublist ((List.filter_sublist _).map Prod.fst) ?_
    rw [map_fst_keyed]
    exact hsnd
  have hdates : (makeWideDataframe rows).dates =
      ((rows.map fun r => r.date).dedup).insertionSort (· ≤ ·) := rfl
  unfold cellAt
  simp only [hgc, hdates, hi]
  rw [List.getD_eq_getElem?_getD, List.getElem?_map, hdig]
  simpa using hcellval

unseal Rat.mul Rat.add Rat.inv Rat.sub in
/-- Witness for C7 amended: the dupQuotes instance discharges the
hypothesis; the wide cell is the mean (10+20)/2 = 15 while the database keeps
the later close 20. -/
theorem duplicate_quotes_spec_witness :
    cellAt (makeWideDataframe dupQuotes) 1 "A" =
      some ((((dupQuotes.filter fun r => r.date == 1 && r.symbol == "A").map
          (fun r => r.close)).sum) /
        ((((dupQuotes.filter fun r => r.date == 1 && r.symbol == "A").map
          (fun r => r.close)).length : ℚ))) ∧
    (saveQuotes [] dupDBQuotes).lookup (1, "A", "N") =
      (match (dupDBQuotes.filter fun q => dbKey q == (1, "A", "N")).getLast? with
       | some q => some q.close
       | none => ([] : List (QuoteKey × ℚ)).lookup (1, "A", "N")) :=
  duplicate_quotes_spec dupQuotes 1 "A" [] dupDBQuotes (1, "A", "N") (by decide)

/-! # PriceTable preparation lemmas (for C8) -/

/-- C8 counterexample: configured symbol B has no column at all in dfAbsent;
`_prepare_dataframe` raises a KeyError listing it, aborting the run rather
than completing with a completeness warning. -/
theorem absent_symbol_keyerror_counterexample :
    prepareDataframe dfAbsent ["A", "B"] = .error ["B"] ∧
    ∀ df2, prepareDataframe dfAbsent ["A", "B"] ≠ .ok df2 := by
  refine ⟨by decide, ?_⟩
  intro df2 h
  rw [show prepareDataframe dfAbsent ["A", "B"] = .error ["B"] from by decide] at h
  exact Except.noConfusion h

/-- C8 amended: a configured symbol wholly absent as a column aborts
`_prepare_dataframe` with a KeyError (see the counterexample).  Only when
every configured symbol has a column does preparation complete; then a
symbol whose column has no observation at all is dropped from the usable
column set, and the non-fatal completeness warning of
`_verify_data_completeness` lists exactly those dropped symbols. -/
theorem sparse_symbol_warning_spec (df : WideDF) (syms : List Sym)
    (hnd : syms.Nodup)
    (hall : ∀ s ∈ syms, (getCol df s).isSome) :
    ∃ df2, prepareDataframe df syms = .ok df2 ∧
      colNames df2 = (syms.filter fun s => ((getCol df s).getD []).any Option.isSome) ∧
      verifyDataCompleteness syms df2 =
        (syms.filter fun s => !((getCol df s).getD []).any Option.isSome) := by
  have hmiss : (syms.filter fun s => (getCol df s).isNone) = [] := by
    rw [List.filter_eq_nil_iff]
    intro s hs hno
    have h := hall s hs
    rw [Option.isNone_iff_eq_none.mp hno] at h
    simp at h
  have hsel : selectCols df syms =
      .ok ⟨df.dates, syms.map fun s => (s, (getCol df s).getD [])⟩ := by
    unfold selectCols
    rw [hmiss]
    rfl
  have hkeys : ((syms.map fun s => (s, (getCol df s).getD [])).filter
      (fun c => c.2.any Option.isSome)).map Prod.fst =
        (syms.filter fun s => ((getCol df s).getD []).any Option.isSome) := by
    rw [List.filter_map, map_fst_keyed]
    rfl
  refine ⟨dropAllNoneCols ⟨df.dates, syms.map fun s => (s, (getCol df s).getD [])⟩,
    ?_, ?_, ?_⟩
  · unfold prepareDataframe
    rw [hsel]
    rfl
  · exact hkeys
  · unfold verifyDataCompleteness
    refine List.filter_congr fun s hs => ?_
    by_cases hq : (((getCol df s).getD []).any Option.isSome) = true
    · have hmem : (s, (getCol df s).getD []) ∈
          (syms.map fun s2 => (s2, (getCol df s2).getD [])).filter
            (fun c => c.2.any Option.isSome) :=
        List.mem_filter.mpr ⟨List.mem_map_of_mem _ hs, hq⟩
      have hknd : (((syms.map fun s2 => (s2, (getCol df s2).getD [])).filter
          (fun c => c.2.any Option.isSome)).map Prod.fst).Nodup := by
        rw [hkeys]
        exact hnd.filter _
      have hl := lookup_eq_of_mem_of_nodup hknd hmem
      show (((syms.map fun s2 => (s2, (getCol df s2).getD [])).filter
          (fun c => c.2.any Option.isSome)).lookup s).isNone = _
      rw [hl, hq]
      rfl
    · have hnotmem : s ∉ ((syms.map fun s2 => (s2, (getCol df s2).getD [])).filter
          (fun c => c.2.any Option.isSome)).map Prod.fst := by
        rw [hkeys]
        intro hmem
        exact hq (List.mem_filter.mp hmem).2
      have hl := lookup_eq_none_of_not_mem_keys hnotmem
      show (((syms.map fun s2 => (s2, (getCol df s2).getD [])).filter
          (fun c => c.2.any Option.isSome)).lookup s).isNone = _
      rw [hl]
      simp [hq]

/-- Witness for C8 amended: dfSparse has an A column with data and a B
column with none; preparation succeeds, keeps A and warns exactly about B. -/
theorem sparse_symbol_warning_spec_witness :
    ∃ df2, prepareDataframe dfSparse ["A", "B"] = .ok df2 ∧
      colNames df2 = (["A", "B"].filter
        fun s => ((getCol dfSparse s).getD []).any Option.isSome) ∧
      verifyDataCompleteness ["A", "B"] df2 =
        (["A", "B"].filter
          fun s => !((getCol dfSparse s).getD []).any Option.isSome) :=
  sparse_symbol_warning_spec dfSparse ["A", "B"] (by decide) (by decide)

end MarketIndexes
